import Mathlib

/- Shallow embedding of the synthetic-data generation and noise-injection
   pipeline of the two driver scripts biexp_example.py and
   hybrid_example_asl.py.  Floating point values are modelled as exact
   rationals (or reals where the code applies a transcendental function),
   and the process-wide NumPy random generator is modelled as an explicit
   stream of standard normal draws: a fixed function of the seed when the
   generator has been seeded, and an arbitrary ambient stream when it has
   not been. -/

namespace VB

/-- Model of np.random.normal(0, std, [n]): read n standard normal draws
from the process stream starting at a position and scale each one by the
requested standard deviation (which is exact, so a zero standard deviation
gives exactly zero draws). -/
def np_random_normal (std : ℚ) (stream : ℕ → ℚ) : ℕ → ℕ → List ℚ
  | 0, _ => []
  | n + 1, pos => (std * stream pos) :: np_random_normal std stream n (pos + 1)

/-- biexp_example.py line 46: DATA_NOISY is DATA_CLEAN plus a fresh normal
sample of the same length, added elementwise. -/
def DATA_NOISY (clean : List ℚ) (std : ℚ) (stream : ℕ → ℚ) : List ℚ :=
  List.zipWith (· + ·) clean (np_random_normal std stream clean.length 0)

/-- biexp_example.py lines 28-30: the seed is applied only when the Python
condition "if opts.rseed:" holds, which tests truthiness, so a seed of 0
(exactly like an absent seed) does not seed the generator.  Here g s is the
deterministic stream produced by a generator seeded with s, and ambient is
the stream of an unseeded process. -/
def process_stream (g : ℕ → ℕ → ℚ) (ambient : ℕ → ℚ) : Option ℕ → ℕ → ℚ
  | none => ambient
  | some s => if s = 0 then ambient else g s

/-- One run of the noise-injection step of biexp_example.py (lines 28-46)
as a function of the seeded-stream table, the ambient unseeded stream, the
optional seed, the clean trace and the noise standard deviation. -/
def run_noise (g : ℕ → ℕ → ℚ) (ambient : ℕ → ℚ) (rseed : Option ℕ)
    (clean : List ℚ) (std : ℚ) : List ℚ :=
  DATA_NOISY clean std (process_stream g ambient rseed)

/-- biexp_example.py line 44: the uniform time grid
t = np.array([float(t)*opts.dt for t in range(opts.nt)]). -/
def t (dt : ℚ) (nt : ℕ) : List ℚ :=
  (List.range nt).map fun i : ℕ => (i : ℚ) * dt

/-- A store of numpy arrays: the index of an array in the list stands for
its object identity, so mutation is visible as a change of the value held
at an existing index. -/
abbrev Store := List (List ℚ)

/-- biexp_example.py line 46: DATA_CLEAN + noise builds a fresh array and
binds it to a new name, so the store gains one array at the end and all
existing arrays are untouched. -/
def add_new (st : Store) (i : ℕ) (noise : List ℚ) : Store :=
  st ++ [List.zipWith (· + ·) (st.getD i []) noise]

/-- hybrid_example_asl.py line 126: data_vol += noise updates the existing
array object in place. -/
def add_in_place (st : Store) (i : ℕ) (noise : List ℚ) : Store :=
  st.set i (List.zipWith (· + ·) (st.getD i []) noise)

/-- biexp_example.py lines 76-83: the optional Fabber comparison block; the
reference tool runs in a subprocess and its output file is then loaded with
no surrounding try/except, so a failure of the load raises. -/
def fabber_block (fabber : Bool) (load_ok : Bool) : Except String Unit :=
  if fabber then (if load_ok then .ok () else .error "ComparisonFailure")
  else .ok ()

/-- biexp_example.py lines 85-95: the optional plotting block, again with
no surrounding try/except. -/
def plot_block (plot : Bool) (plot_ok : Bool) : Except String Unit :=
  if plot then (if plot_ok then .ok () else .error "PlotFailure")
  else .ok ()

/-- biexp_example.py lines 76-95: after the inference call the script runs
the comparison block and then the plotting block in sequence; an exception
raised by either block propagates. -/
def script_tail (fabber plot load_ok plot_ok : Bool) : Except String Unit :=
  (fabber_block fabber load_ok).bind fun _ => plot_block plot plot_ok

/-- The pipeline stages relevant to the ground-truth noise precision. -/
inductive Step
  | evalSignal
  | divPrec
  | injectNoise
deriving DecidableEq

/-- Run a straight-line script given, for each step in order, whether it
succeeds: steps execute until the first failure; the result is the list of
steps that started together with whether the script completed. -/
def run_steps : List (Step × Bool) → List Step × Bool
  | [] => ([], true)
  | (e, ok) :: rest =>
    if ok then (e :: (run_steps rest).1, (run_steps rest).2)
    else ([e], false)

/-- biexp_example.py lines 36-46: NOISE_PREC_TRUTH = 1/NOISE_VAR_TRUTH is
computed on line 36, before the signal is generated on lines 43-46; Python
division 1/x over floats raises ZeroDivisionError exactly when x = 0, and
NOISE_VAR_TRUTH is the square of the noise standard deviation. -/
def biexp_steps (std : ℚ) : List (Step × Bool) :=
  [(Step.divPrec, decide (std ^ 2 ≠ 0)), (Step.evalSignal, true),
    (Step.injectNoise, true)]

/-- hybrid_example_asl.py lines 117-126: the clean signal is generated on
line 117, the precision division happens on line 122 and noise is injected
on line 126. -/
def hybrid_steps (std : ℚ) : List (Step × Bool) :=
  [(Step.evalSignal, true), (Step.divPrec, decide (std ^ 2 ≠ 0)),
    (Step.injectNoise, true)]

/- Helper: adding a scaled sample with scale zero is the identity. -/

theorem zip_add_zero_draws (stream : ℕ → ℚ) :
    ∀ (clean : List ℚ) (pos : ℕ),
      List.zipWith (· + ·) clean (np_random_normal 0 stream clean.length pos)
        = clean
  | [], _ => rfl
  | c :: rest, pos => by
    simp [np_random_normal, List.zipWith, zip_add_zero_draws stream rest (pos + 1)]

/-- C2: with standard deviation 0 the noise-injection step returns the
clean trace unchanged, for every clean trace, every generator table and
every seed (np.random.normal with scale 0 returns exact zeros). -/
theorem noise_std_zero_id (g : ℕ → ℕ → ℚ) (ambient : ℕ → ℚ)
    (rseed : Option ℕ) (clean : List ℚ) :
    run_noise g ambient rseed clean 0 = clean :=
  zip_add_zero_draws _ clean 0

/-- C1 as stated is false: with seed 0 the seeding branch is skipped by
Python truthiness, so two runs that differ only in the ambient generator
state produce different noisy traces from the same clean trace, standard
deviation 1 and the same seed 0. -/
theorem noise_seed_zero_not_reproducible :
    run_noise (fun _ _ => 0) (fun _ => 0) (some 0) [0] 1 ≠
      run_noise (fun _ _ => 0) (fun _ => 1) (some 0) [0] 1 := by
  simp [run_noise, DATA_NOISY, np_random_normal, process_stream]

/-- C1 amended: for every nonzero seed the noisy trace does not depend on
the ambient generator state, so repeated runs with the same clean trace,
the same standard deviation, the same seed and the same call order produce
identical noisy traces. -/
theorem noise_reproducible_of_seed_ne_zero (g : ℕ → ℕ → ℚ)
    (a1 a2 : ℕ → ℚ) (s : ℕ) (hs : s ≠ 0) (clean : List ℚ) (std : ℚ) :
    run_noise g a1 (some s) clean std = run_noise g a2 (some s) clean std := by
  simp [run_noise, process_stream, hs]

/-- Witness for the amended C1 at seed 1234. -/
theorem noise_reproducible_witness :
    run_noise (fun _ _ => 0) (fun _ => 0) (some 1234) [0] 1 =
      run_noise (fun _ _ => 0) (fun _ => 1) (some 1234) [0] 1 :=
  noise_reproducible_of_seed_ne_zero _ _ _ 1234 (by decide) [0] 1

/-- C9: for the TimeGrid built from dt = 1/10 and nt = 100, the entry at
every index i < 100 equals (1/10) * i. -/
theorem timegrid_entry (i : ℕ) (h : i < 100) :
    (t (1/10) 100).getD i 0 = (1/10 : ℚ) * i := by
  have hl : i < (t (1/10) 100).length := by simpa [t] using h
  rw [List.getD_eq_getElem _ _ hl]
  simp only [t, List.getElem_map, List.getElem_range]
  ring

/-- Witness for C9 at index 7. -/
theorem timegrid_entry_witness : (t (1/10) 100).getD 7 0 = (1/10 : ℚ) * 7 :=
  timegrid_entry 7 (by decide)

/-- C4 as stated is false: with the comparison enabled and its output load
failing, the script tail ends in an uncaught error instead of completing
(the inference call itself has already returned at that point). -/
theorem script_tail_aborts :
    script_tail true false false true = Except.error "ComparisonFailure" ∧
      Except.error "ComparisonFailure" ≠ (Except.ok () : Except String Unit) :=
  ⟨rfl, fun h => Except.noConfusion h⟩

/-- C4 amended: the script tail completes exactly when every enabled
best-effort block succeeds; a comparison or plotting failure is not caught,
so it propagates and aborts the process even though inference has already
finished. -/
theorem script_tail_ok_iff (fabber plot load_ok plot_ok : Bool) :
    script_tail fabber plot load_ok plot_ok = Except.ok () ↔
      ((fabber = true → load_ok = true) ∧ (plot = true → plot_ok = true)) := by
  cases fabber <;> cases plot <;> cases load_ok <;> cases plot_ok <;>
    simp [script_tail, fabber_block, plot_block, Except.bind]

/-- Witness for the amended C4 with both blocks enabled and succeeding. -/
theorem script_tail_ok_iff_witness :
    script_tail true true true true = Except.ok () :=
  (script_tail_ok_iff true true true true).mpr (by decide)

/-- C10 as stated is false for the hybrid driver: with standard deviation 0
the division error is raised only after the clean signal has already been
generated (line 117 precedes line 122). -/
theorem hybrid_div_after_signal :
    run_steps (hybrid_steps 0) = ([Step.evalSignal, Step.divPrec], false) ∧
      Step.evalSignal ∈ (run_steps (hybrid_steps 0)).1 := by
  decide

/-- C10 amended: for standard deviation 0 both drivers raise the division
error and never reach noise injection; the biexp driver raises before
generating any signal while the hybrid driver raises after generating the
clean signal; for a nonzero standard deviation both drivers complete. -/
theorem div_prec_guard (std : ℚ) :
    (std = 0 →
      run_steps (biexp_steps std) = ([Step.divPrec], false) ∧
      run_steps (hybrid_steps std)
        = ([Step.evalSignal, Step.divPrec], false)) ∧
    (std ≠ 0 →
      (run_steps (biexp_steps std)).2 = true ∧
      (run_steps (hybrid_steps std)).2 = true) := by
  constructor
  · rintro rfl
    exact ⟨by decide, by decide⟩
  · intro h
    have h2 : std ^ 2 ≠ 0 := pow_ne_zero 2 h
    simp [biexp_steps, hybrid_steps, run_steps, h2]

/-- Witness for the amended C10 at standard deviation 0. -/
theorem div_prec_guard_witness :
    run_steps (biexp_steps 0) = ([Step.divPrec], false) :=
  ((div_prec_guard 0).1 rfl).1

/- Helpers about getD over append and set, used for the store model. -/

theorem getD_append_lt {α : Type} (d : α) :
    ∀ (l l' : List α) (j : ℕ), j < l.length → (l ++ l').getD j d = l.getD j d
  | a :: l, l', 0, _ => rfl
  | a :: l, l', j + 1, h => getD_append_lt d l l' j (by simpa using h)
  | [], _, j, h => absurd h (by simp)

theorem getD_append_self {α : Type} (d : α) :
    ∀ (l : List α) (x : α), (l ++ [x]).getD l.length d = x
  | [], _ => rfl
  | _ :: l, x => getD_append_self d l x

theorem getD_set_self {α : Type} (d : α) :
    ∀ (l : List α) (i : ℕ) (x : α), i < l.length → (l.set i x).getD i d = x
  | a :: l, 0, x, _ => rfl
  | a :: l, i + 1, x, h => getD_set_self d l i x (by simpa using h)
  | [], i, x, h => absurd h (by simp)

theorem getD_set_ne {α : Type} (d : α) :
    ∀ (l : List α) (i j : ℕ) (x : α), j ≠ i → (l.set i x).getD j d = l.getD j d
  | [], _, _, _, _ => by simp
  | _ :: _, 0, 0, _, hj => absurd rfl hj
  | _ :: _, 0, _ + 1, _, _ => rfl
  | _ :: _, _ + 1, 0, _, _ => rfl
  | _ :: l, i + 1, j + 1, x, hj =>
    getD_set_ne d l i j x (fun h => hj (by rw [h]))

/-- C8 as stated is false for the hybrid driver: the in-place update on
line 126 of hybrid_example_asl.py mutates the existing volume trace (the
array object holds a different value after the noise step). -/
theorem inplace_mutates :
    (add_in_place [[1, 2]] 0 [1, 1]).getD 0 [] ≠
      ([[1, 2]] : Store).getD 0 [] := by
  simp [add_in_place]

/-- C8 amended: the biexp noise step allocates a fresh trace of the clean
length and leaves every existing trace (in particular the clean one)
unchanged, while the hybrid noise step updates the volume trace in place,
preserving its length and every other trace. -/
theorem noise_step_frame (st : Store) (i : ℕ) (noise : List ℚ)
    (hlen : noise.length = (st.getD i []).length) :
    (∀ j, j < st.length → (add_new st i noise).getD j [] = st.getD j []) ∧
    ((add_new st i noise).getD st.length []).length
        = (st.getD i []).length ∧
    ((add_in_place st i noise).getD i []).length
        = (st.getD i []).length ∧
    (∀ j, j ≠ i → (add_in_place st i noise).getD j [] = st.getD j []) := by
  refine ⟨?_, ?_, ?_, ?_⟩
  · intro j hj
    exact getD_append_lt _ st _ j hj
  · rw [add_new, getD_append_self]
    rw [List.length_zipWith, hlen, min_self]
  · by_cases h : i < st.length
    · rw [add_in_place, getD_set_self _ _ _ _ h]
      rw [List.length_zipWith, hlen, min_self]
    · rw [add_in_place, List.set_eq_of_length_le (by omega)]
  · intro j hj
    exact getD_set_ne _ st i j _ hj

/-- Witness for the amended C8 on a concrete one-array store. -/
theorem noise_step_frame_witness :
    ((add_new [[1, 2]] 0 [1, 1]).getD 1 []).length = 2 ∧
      ((add_in_place [[1, 2]] 0 [1, 1]).getD 0 []).length = 2 := by
  have h := noise_step_frame [[1, 2]] 0 [1, 1] (by decide)
  exact ⟨h.2.1.trans (by decide), h.2.2.1.trans (by decide)⟩

/- The spatial pipeline of hybrid_example_asl.py, over exact rationals:
   a generic 3d field is normalized by its maximum (line 94), sampled by
   multilinear interpolation at cortex coordinates (lines 102-106), rescaled
   into CBF values (line 107) and concatenated with the WM vector
   (line 115). -/

/-- numpy ndarray.max over a nonempty array, as a fold over the entries
(numpy rejects an empty array, for which this returns the default 0). -/
def list_max {α : Type} [LinearOrder α] [Zero α] : List α → α
  | [] => 0
  | a :: l => l.foldl max a

/-- All values of a 3d array of the given shape, row-major. -/
def field_entries (dims : ℕ × ℕ × ℕ) (f : ℕ → ℕ → ℕ → ℚ) : List ℚ :=
  (List.range dims.1).flatMap fun i =>
    (List.range dims.2.1).flatMap fun j =>
      (List.range dims.2.2).map fun k => f i j k

/-- hybrid_example_asl.py line 94: sine = sine / sine.max(), elementwise
division of the field by its maximum entry (the signed maximum, not the
maximum absolute value). -/
def normalize_field (dims : ℕ × ℕ × ℕ) (f : ℕ → ℕ → ℕ → ℚ) :
    ℕ → ℕ → ℕ → ℚ :=
  fun i j k => f i j k / list_max (field_entries dims f)

/-- One-dimensional linear interpolation on the integer grid: the value at
x is the convex combination of the grid values at floor x and floor x + 1
(at an exact grid point the second weight is zero). -/
def lin1 (g : ℕ → ℚ) (x : ℚ) : ℚ :=
  (1 - (x - ⌊x⌋)) * g ⌊x⌋.toNat + (x - ⌊x⌋) * g (⌊x⌋.toNat + 1)

/-- Trilinear interpolation of a 3d field, the linear method of
scipy.interpolate.interpn over the grid arange(d0) x arange(d1) x
arange(d2). -/
def trilinear (f : ℕ → ℕ → ℕ → ℚ) (x y z : ℚ) : ℚ :=
  lin1 (fun i => lin1 (fun j => lin1 (fun k => f i j k) z) y) x

/-- A query coordinate is inside the grid along an axis with d points when
it lies between the first grid value 0 and the last grid value d - 1. -/
def axis_ok (d : ℕ) (x : ℚ) : Prop := 0 ≤ x ∧ x ≤ (d : ℚ) - 1

instance (d : ℕ) (x : ℚ) : Decidable (axis_ok d x) := by
  unfold axis_ok; infer_instance

/-- A query point is inside the bounding box of the volume grid. -/
def in_box (dims : ℕ × ℕ × ℕ) (q : ℚ × ℚ × ℚ) : Prop :=
  axis_ok dims.1 q.1 ∧ axis_ok dims.2.1 q.2.1 ∧ axis_ok dims.2.2 q.2.2

instance (dims : ℕ × ℕ × ℕ) (q : ℚ × ℚ × ℚ) : Decidable (in_box dims q) := by
  unfold in_box; infer_instance

/-- scipy.interpolate.interpn with the default bounds_error = True
(hybrid_example_asl.py lines 102-106): a query outside the bounding box
raises ValueError instead of extrapolating or clamping. -/
def interpn (dims : ℕ × ℕ × ℕ) (f : ℕ → ℕ → ℕ → ℚ) (q : ℚ × ℚ × ℚ) :
    Except String ℚ :=
  if in_box dims q then .ok (trilinear f q.1 q.2.1 q.2.2)
  else .error "out of bounds"

/-- Evaluate a fallible function on each element of a list in order,
propagating the first raised error (Python exception semantics). -/
def mapE {α β : Type} (f : α → Except String β) : List α → Except String (List β)
  | [] => .ok []
  | a :: l =>
    match f a with
    | .error e => .error e
    | .ok b =>
      match mapE f l with
      | .error e => .error e
      | .ok bs => .ok (b :: bs)

/-- hybrid_example_asl.py lines 102-106: ctx_sine is the normalized field
interpolated at the cortex vertex coordinates. -/
def ctx_sine (dims : ℕ × ℕ × ℕ) (f : ℕ → ℕ → ℕ → ℚ)
    (pts : List (ℚ × ℚ × ℚ)) : Except String (List ℚ) :=
  mapE (interpn dims (normalize_field dims f)) pts

/-- hybrid_example_asl.py line 107: ctx_cbf = opts.gm_cbf +
(opts.gm_cbf_var * ctx_sine), elementwise over the cortex vertices. -/
def ctx_cbf (gm_cbf gm_cbf_var : ℚ) (sines : List ℚ) : List ℚ :=
  sines.map fun s => gm_cbf + gm_cbf_var * s

/-- hybrid_example_asl.py line 115: the composite CBF vector is the cortex
vector followed by a constant WM vector of length wm_size. -/
def cbf (ctx : List ℚ) (wm_cbf : ℚ) (wm_size : ℕ) : List ℚ :=
  ctx ++ List.replicate wm_size wm_cbf

/-- The cortex part of the pipeline from raw field to per-vertex CBF. -/
def hybrid_ctx (dims : ℕ × ℕ × ℕ) (f : ℕ → ℕ → ℕ → ℚ)
    (pts : List (ℚ × ℚ × ℚ)) (gm_cbf gm_cbf_var : ℚ) :
    Except String (List ℚ) :=
  (ctx_sine dims f pts).map (ctx_cbf gm_cbf gm_cbf_var)

/- Helpers about folded maxima, shared by the rational and real fields. -/

theorem foldl_max_le {α : Type} [LinearOrder α] :
    ∀ (l : List α) (a b : α), a ≤ b → (∀ x ∈ l, x ≤ b) → l.foldl max a ≤ b
  | [], a, b, ha, _ => ha
  | x :: l, a, b, ha, h =>
    foldl_max_le l (max a x) b (max_le ha (h x (by simp)))
      fun y hy => h y (by simp [hy])

theorem le_foldl_max {α : Type} [LinearOrder α] :
    ∀ (l : List α) (a : α), a ≤ l.foldl max a
  | [], _ => le_refl _
  | x :: l, a => le_trans (le_max_left a x) (le_foldl_max l (max a x))

theorem mem_le_foldl_max {α : Type} [LinearOrder α] :
    ∀ (l : List α) (a x : α), x ∈ l → x ≤ l.foldl max a
  | y :: l, a, x, h => by
    rcases List.mem_cons.mp h with h1 | h1
    · subst h1
      exact le_trans (le_max_right a x) (le_foldl_max l (max a x))
    · exact mem_le_foldl_max l (max a y) x h1

theorem le_list_max {α : Type} [LinearOrder α] [Zero α] {l : List α} {x : α}
    (h : x ∈ l) : x ≤ list_max l := by
  cases l with
  | nil => cases h
  | cons a l =>
    rcases List.mem_cons.mp h with h1 | h1
    · subst h1; exact le_foldl_max l x
    · exact mem_le_foldl_max l a x h1

theorem list_max_le {α : Type} [LinearOrder α] [Zero α] {l : List α} {b : α}
    (hne : l ≠ []) (h : ∀ x ∈ l, x ≤ b) : list_max l ≤ b := by
  cases l with
  | nil => exact absurd rfl hne
  | cons a l =>
    exact foldl_max_le l a b (h a (by simp)) fun y hy => h y (by simp [hy])

theorem list_max_eq_of_mem_of_le {α : Type} [LinearOrder α] [Zero α]
    {l : List α} {c : α} (hmem : c ∈ l) (hall : ∀ x ∈ l, x ≤ c) :
    list_max l = c :=
  le_antisymm (list_max_le (List.ne_nil_of_mem hmem) hall) (le_list_max hmem)

/- Helpers about the interpolation pipeline. -/

theorem trilinear_const (a : ℚ) (x y z : ℚ) :
    trilinear (fun _ _ _ => a) x y z = a := by
  simp only [trilinear, lin1]
  ring

theorem interpn_error_eq (dims : ℕ × ℕ × ℕ) (f : ℕ → ℕ → ℕ → ℚ)
    (q : ℚ × ℚ × ℚ) (e : String) (h : interpn dims f q = .error e) :
    e = "out of bounds" := by
  by_cases hb : in_box dims q
  · rw [interpn, if_pos hb] at h
    exact absurd h (by simp)
  · rw [interpn, if_neg hb] at h
    injection h with h2
    exact h2.symm

theorem mapE_error {α β : Type} (f : α → Except String β) (m : String)
    (huniq : ∀ a e, f a = .error e → e = m) :
    ∀ (pts : List α) (q : α), q ∈ pts → f q = .error m →
      mapE f pts = .error m
  | [], q, hq, _ => absurd hq (by simp)
  | a :: l, q, hq, hfq => by
    rcases List.mem_cons.mp hq with h1 | h1
    · subst h1
      simp only [mapE, hfq]
    · simp only [mapE]
      cases hfa : f a with
      | error e => rw [huniq a e hfa]
      | ok b => rw [mapE_error f m huniq l q h1 hfq]

theorem mapE_const {α β : Type} (f : α → Except String β) (v : β) :
    ∀ (l : List α), (∀ q ∈ l, f q = .ok v) →
      mapE f l = .ok (l.map fun _ => v)
  | [], _ => rfl
  | a :: l, h => by
    rw [List.map_cons]
    simp only [mapE, h a (by simp),
      mapE_const f v l fun q hq => h q (by simp [hq])]

theorem ctx_cbf_getD (gm_cbf gm_cbf_var : ℚ) :
    ∀ (sines : List ℚ) (i : ℕ), i < sines.length →
      (ctx_cbf gm_cbf gm_cbf_var sines).getD i 0
        = gm_cbf + gm_cbf_var * sines.getD i 0
  | [], i, h => absurd h (by simp)
  | s :: rest, 0, _ => rfl
  | s :: rest, i + 1, h => ctx_cbf_getD _ _ rest i (by simpa using h)

/-- C5: in the spatial case the composite parameter vector is the cortical
vector followed by the WM vector, its length is the total number of
locations across both regions, and each cortical entry equals
base + variation * field value at that location. -/
theorem composite_cbf_spec (gm_cbf gm_cbf_var wm_cbf : ℚ) (sines : List ℚ)
    (wm_size : ℕ) :
    (cbf (ctx_cbf gm_cbf gm_cbf_var sines) wm_cbf wm_size).length
        = sines.length + wm_size ∧
    ∀ i, i < sines.length →
      (cbf (ctx_cbf gm_cbf gm_cbf_var sines) wm_cbf wm_size).getD i 0
        = gm_cbf + gm_cbf_var * sines.getD i 0 := by
  constructor
  · simp [cbf, ctx_cbf]
  · intro i hi
    rw [cbf, getD_append_lt (0 : ℚ) _ _ i (by simpa [ctx_cbf] using hi)]
    exact ctx_cbf_getD _ _ sines i hi

/-- Witness for C5 on a one-vertex cortex and a two-voxel WM region. -/
theorem composite_cbf_witness :
    (cbf (ctx_cbf 60 60 [1/2]) 20 2).getD 0 0 = 60 + 60 * ((1 : ℚ)/2) ∧
      (cbf (ctx_cbf 60 60 [1/2]) 20 2).length = 3 := by
  have h := composite_cbf_spec 60 60 20 [1/2] 2
  exact ⟨h.2 0 (by decide), h.1⟩

/-- C7: if some cortical query coordinate lies outside the bounding box of
the volume, the spatial sampling step raises the out-of-bounds error, which
propagates through the CBF pipeline instead of yielding clamped or
extrapolated values. -/
theorem interp_out_of_bounds (dims : ℕ × ℕ × ℕ) (f : ℕ → ℕ → ℕ → ℚ)
    (pts : List (ℚ × ℚ × ℚ)) (gm_cbf gm_cbf_var : ℚ) (q : ℚ × ℚ × ℚ)
    (hq : q ∈ pts) (hob : ¬ in_box dims q) :
    hybrid_ctx dims f pts gm_cbf gm_cbf_var = .error "out of bounds" := by
  have h1 : interpn dims (normalize_field dims f) q = .error "out of bounds" := by
    rw [interpn, if_neg hob]
  have h2 := mapE_error (interpn dims (normalize_field dims f)) "out of bounds"
    (fun a e he => interpn_error_eq dims _ a e he) pts q hq h1
  rw [hybrid_ctx, ctx_sine, h2]
  rfl

/-- Witness for C7: the query (5, 0, 0) lies outside a 3 x 3 x 3 volume. -/
theorem interp_out_of_bounds_witness :
    hybrid_ctx (3, 3, 3) (fun _ _ _ => 0) [(5, 0, 0)] 60 60
      = .error "out of bounds" :=
  interp_out_of_bounds (3, 3, 3) _ _ 60 60 (5, 0, 0) (by simp)
    (by norm_num [in_box, axis_ok])

theorem field_entries_const {dims : ℕ × ℕ × ℕ} {c x : ℚ}
    (hx : x ∈ field_entries dims (fun _ _ _ => c)) : x = c := by
  simp only [field_entries, List.mem_flatMap, List.mem_map,
    List.mem_range] at hx
  obtain ⟨i, _, j, _, k, _, hxx⟩ := hx
  exact hxx.symm

/-- C6 fails as stated: a constant nonzero field normalizes to the all-ones
field, so with base 60 and variation 60 the single cortical entry is 120,
not the base value 60. -/
theorem constant_field_not_base :
    hybrid_ctx (2, 1, 1) (fun _ _ _ => 5) [(0, 0, 0)] 60 60
        = .ok [120] ∧ (120 : ℚ) ≠ 60 := by
  constructor
  · have hbox : in_box (2, 1, 1) ((0 : ℚ), (0 : ℚ), (0 : ℚ)) := by
      norm_num [in_box, axis_ok]
    have hmem : (5 : ℚ) ∈ field_entries (2, 1, 1) (fun _ _ _ => 5) := by
      simp only [field_entries, List.mem_flatMap, List.mem_map, List.mem_range]
      exact ⟨0, by norm_num, 0, by norm_num, 0, by norm_num, trivial⟩
    have hmax : list_max (field_entries (2, 1, 1) (fun _ _ _ => (5 : ℚ))) = 5 :=
      list_max_eq_of_mem_of_le hmem fun x hx => le_of_eq (field_entries_const hx)
    have hnorm : normalize_field (2, 1, 1) (fun _ _ _ => (5 : ℚ))
        = fun _ _ _ => 1 := by
      funext i j k
      simp only [normalize_field]
      rw [hmax]
      norm_num
    have hone : interpn (2, 1, 1) (fun _ _ _ => (1 : ℚ)) (0, 0, 0) = .ok 1 := by
      rw [interpn, if_pos hbox, trilinear_const]
    rw [hybrid_ctx, ctx_sine, hnorm,
      mapE_const _ 1 [(0, 0, 0)] fun q hq => by
        rw [List.mem_singleton.mp hq]; exact hone]
    norm_num [ctx_cbf, Except.map]
  · norm_num

/-- C6 amended: for a constant nonzero field and in-bounds query points,
every cortical entry of the composite vector equals base + variation
exactly (the normalized constant field is identically one), so the entries
equal the base alone only when the variation amplitude is zero. -/
theorem constant_field_pipeline (d0 d1 d2 : ℕ)
    (h0 : 0 < d0) (h1 : 0 < d1) (h2 : 0 < d2) (c : ℚ) (hc : c ≠ 0)
    (pts : List (ℚ × ℚ × ℚ)) (hpts : ∀ q ∈ pts, in_box (d0, d1, d2) q)
    (gm_cbf gm_cbf_var : ℚ) :
    hybrid_ctx (d0, d1, d2) (fun _ _ _ => c) pts gm_cbf gm_cbf_var
      = .ok (pts.map fun _ => gm_cbf + gm_cbf_var) := by
  have hmem : c ∈ field_entries (d0, d1, d2) (fun _ _ _ => c) := by
    simp only [field_entries, List.mem_flatMap, List.mem_map, List.mem_range]
    exact ⟨0, h0, 0, h1, 0, h2, trivial⟩
  have hmax : list_max (field_entries (d0, d1, d2) (fun _ _ _ => c)) = c :=
    list_max_eq_of_mem_of_le hmem fun x hx => le_of_eq (field_entries_const hx)
  have hnorm : normalize_field (d0, d1, d2) (fun _ _ _ => c)
      = fun _ _ _ => 1 := by
    funext i j k
    simp only [normalize_field]
    rw [hmax, div_self hc]
  have hok : ∀ q ∈ pts, interpn (d0, d1, d2) (fun _ _ _ => (1 : ℚ)) q = .ok 1 :=
    fun q hq => by rw [interpn, if_pos (hpts q hq), trilinear_const]
  rw [hybrid_ctx, ctx_sine, hnorm, mapE_const _ 1 pts hok]
  simp [ctx_cbf, Except.map, List.map_replicate, mul_one]

/-- Witness for the amended C6 on a single-voxel volume. -/
theorem constant_field_pipeline_witness :
    hybrid_ctx (1, 1, 1) (fun _ _ _ => 5) [(0, 0, 0)] 60 60 = .ok [120] := by
  have h := constant_field_pipeline 1 1 1 (by decide) (by decide) (by decide)
    5 (by norm_num) [(0, 0, 0)] (by norm_num [in_box, axis_ok]) 60 60
  have h120 : (60 : ℚ) + 60 = 120 := by norm_num
  simpa [h120] using h

/- The sinusoidal field of hybrid_example_asl.py lines 89-94, over the
   reals since the code applies a transcendental function to the voxel
   indices. -/

open Real

/-- hybrid_example_asl.py lines 89-93: the raw sinusoidal field; inds[a]
holds the voxel index along axis a and scale = 2, so the value at voxel
(i, j, k) is sin(j/2) + sin(i/2) + sin(k/2). -/
noncomputable def sine (i j k : ℕ) : ℝ :=
  Real.sin ((j : ℝ) / 2) + Real.sin ((i : ℝ) / 2) + Real.sin ((k : ℝ) / 2)

/-- The entries of the sinusoidal field over a d0 x d1 x d2 volume. -/
noncomputable def sine_entries (d0 d1 d2 : ℕ) : List ℝ :=
  (List.range d0).flatMap fun i =>
    (List.range d1).flatMap fun j =>
      (List.range d2).map fun k => sine i j k

/-- hybrid_example_asl.py line 94: sine.max(), the signed maximum entry of
the raw field. -/
noncomputable def sine_max (d0 d1 d2 : ℕ) : ℝ :=
  list_max (sine_entries d0 d1 d2)

/-- hybrid_example_asl.py line 94: the normalized field sine / sine.max()
(division by the signed maximum, not by the maximum absolute value). -/
noncomputable def sine_normalized (d0 d1 d2 i j k : ℕ) : ℝ :=
  sine i j k / sine_max d0 d1 d2

theorem sine_mem {d0 d1 d2 i j k : ℕ} (hi : i < d0) (hj : j < d1)
    (hk : k < d2) : sine i j k ∈ sine_entries d0 d1 d2 := by
  simp only [sine_entries, List.mem_flatMap, List.mem_map, List.mem_range]
  exact ⟨i, hi, j, hj, k, hk, rfl⟩

/- Numeric facts about sin at the grid points, from the quartic Taylor
   bounds on cos and the decimal bounds on pi. -/

theorem sin_nonpos_of_pi_le {x : ℝ} (hx1 : π ≤ x) (hx2 : x ≤ 2 * π) :
    Real.sin x ≤ 0 := by
  have h := Real.sin_nonneg_of_nonneg_of_le_pi
    (show (0 : ℝ) ≤ x - π by linarith) (show x - π ≤ π by linarith)
  rw [Real.sin_sub_pi] at h
  linarith

theorem cos_le_of_abs_le {u a b B : ℝ} (ha : a ≤ |u|) (hb : |u| ≤ b)
    (h0 : 0 ≤ a) (hb1 : b ≤ 1)
    (hB : 1 - a ^ 2 / 2 + b ^ 4 * (5 / 96) ≤ B) : Real.cos u ≤ B := by
  have habs1 : |u| ≤ 1 := le_trans hb hb1
  have h2 := (abs_sub_le_iff.mp (Real.cos_bound habs1)).1
  have hu2 : a ^ 2 ≤ u ^ 2 := by
    rw [← sq_abs u]
    exact pow_le_pow_left₀ h0 ha 2
  have hu4 : |u| ^ 4 ≤ b ^ 4 := pow_le_pow_left₀ (abs_nonneg u) hb 4
  linarith

theorem cos_ge_of_abs_le {u b B : ℝ} (hb : |u| ≤ b) (hb1 : b ≤ 1)
    (hB : B ≤ 1 - b ^ 2 / 2 - b ^ 4 * (5 / 96)) : B ≤ Real.cos u := by
  have habs1 : |u| ≤ 1 := le_trans hb hb1
  have h2 := (abs_sub_le_iff.mp (Real.cos_bound habs1)).2
  have hu2 : u ^ 2 ≤ b ^ 2 := by
    rw [← sq_abs u]
    exact pow_le_pow_left₀ (abs_nonneg u) hb 2
  have hu4 : |u| ^ 4 ≤ b ^ 4 := pow_le_pow_left₀ (abs_nonneg u) hb 4
  linarith

theorem sin_half_le (i : ℕ) (hi : i < 23) :
    Real.sin ((i : ℝ) / 2) ≤ 0.9976 := by
  have hπl : (3.141592 : ℝ) < π := Real.pi_gt_d6
  have hπu : π < (3.141593 : ℝ) := Real.pi_lt_d6
  interval_cases i
  · norm_num [Real.sin_zero]
  · push_cast
    have h := Real.sin_lt (show (0 : ℝ) < 1 / 2 by norm_num)
    linarith
  · push_cast
    rw [← Real.cos_pi_div_two_sub]
    have hnn : (0 : ℝ) ≤ π / 2 - 2 / 2 := by linarith
    refine cos_le_of_abs_le (show (0.57 : ℝ) ≤ |π / 2 - 2 / 2| from ?_)
      (show |π / 2 - 2 / 2| ≤ 0.571 from ?_) (by norm_num) (by norm_num)
      (by norm_num)
    · rw [abs_of_nonneg hnn]; linarith
    · rw [abs_of_nonneg hnn]; linarith
  · push_cast
    rw [← Real.cos_pi_div_two_sub]
    have hnn : (0 : ℝ) ≤ π / 2 - 3 / 2 := by linarith
    refine cos_le_of_abs_le (show (0.0707 : ℝ) ≤ |π / 2 - 3 / 2| from ?_)
      (show |π / 2 - 3 / 2| ≤ 0.0708 from ?_) (by norm_num) (by norm_num)
      (by norm_num)
    · rw [abs_of_nonneg hnn]; linarith
    · rw [abs_of_nonneg hnn]; linarith
  · push_cast
    rw [← Real.cos_pi_div_two_sub]
    have hnp : π / 2 - 4 / 2 ≤ (0 : ℝ) := by linarith
    refine cos_le_of_abs_le (show (0.429 : ℝ) ≤ |π / 2 - 4 / 2| from ?_)
      (show |π / 2 - 4 / 2| ≤ 0.4293 from ?_) (by norm_num) (by norm_num)
      (by norm_num)
    · rw [abs_of_nonpos hnp]; linarith
    · rw [abs_of_nonpos hnp]; linarith
  · push_cast
    rw [← Real.cos_pi_div_two_sub]
    have hnp : π / 2 - 5 / 2 ≤ (0 : ℝ) := by linarith
    refine cos_le_of_abs_le (show (0.929 : ℝ) ≤ |π / 2 - 5 / 2| from ?_)
      (show |π / 2 - 5 / 2| ≤ 0.9293 from ?_) (by norm_num) (by norm_num)
      (by norm_num)
    · rw [abs_of_nonpos hnp]; linarith
    · rw [abs_of_nonpos hnp]; linarith
  · push_cast
    rw [← Real.sin_pi_sub]
    have h := Real.sin_lt (show (0 : ℝ) < π - 6 / 2 by linarith)
    linarith
  · push_cast
    have h := sin_nonpos_of_pi_le (show π ≤ (7 : ℝ) / 2 by linarith)
      (show (7 : ℝ) / 2 ≤ 2 * π by linarith)
    linarith
  · push_cast
    have h := sin_nonpos_of_pi_le (show π ≤ (8 : ℝ) / 2 by linarith)
      (show (8 : ℝ) / 2 ≤ 2 * π by linarith)
    linarith
  · push_cast
    have h := sin_nonpos_of_pi_le (show π ≤ (9 : ℝ) / 2 by linarith)
      (show (9 : ℝ) / 2 ≤ 2 * π by linarith)
    linarith
  · push_cast
    have h := sin_nonpos_of_pi_le (show π ≤ (10 : ℝ) / 2 by linarith)
      (show (10 : ℝ) / 2 ≤ 2 * π by linarith)
    linarith
  · push_cast
    have h := sin_nonpos_of_pi_le (show π ≤ (11 : ℝ) / 2 by linarith)
      (show (11 : ℝ) / 2 ≤ 2 * π by linarith)
    linarith
  · push_cast
    have h := sin_nonpos_of_pi_le (show π ≤ (12 : ℝ) / 2 by linarith)
      (show (12 : ℝ) / 2 ≤ 2 * π by linarith)
    linarith
  · push_cast
    rw [← Real.sin_sub_two_pi]
    have h := Real.sin_lt (show (0 : ℝ) < 13 / 2 - 2 * π by linarith)
    linarith
  · push_cast
    rw [← Real.sin_sub_two_pi]
    have h := Real.sin_lt (show (0 : ℝ) < 14 / 2 - 2 * π by linarith)
    linarith
  · push_cast
    rw [← Real.cos_sub_pi_div_two, ← Real.cos_sub_two_pi]
    have hnp : 15 / 2 - π / 2 - 2 * π ≤ (0 : ℝ) := by linarith
    refine cos_le_of_abs_le
      (show (0.3539 : ℝ) ≤ |15 / 2 - π / 2 - 2 * π| from ?_)
      (show |15 / 2 - π / 2 - 2 * π| ≤ 0.354 from ?_) (by norm_num)
      (by norm_num) (by norm_num)
    · rw [abs_of_nonpos hnp]; linarith
    · rw [abs_of_nonpos hnp]; linarith
  · push_cast
    rw [← Real.cos_sub_pi_div_two, ← Real.cos_sub_two_pi]
    have hnn : (0 : ℝ) ≤ 16 / 2 - π / 2 - 2 * π := by linarith
    refine cos_le_of_abs_le
      (show (0.146 : ℝ) ≤ |16 / 2 - π / 2 - 2 * π| from ?_)
      (show |16 / 2 - π / 2 - 2 * π| ≤ 0.1461 from ?_) (by norm_num)
      (by norm_num) (by norm_num)
    · rw [abs_of_nonneg hnn]; linarith
    · rw [abs_of_nonneg hnn]; linarith
  · push_cast
    rw [← Real.cos_sub_pi_div_two, ← Real.cos_sub_two_pi]
    have hnn : (0 : ℝ) ≤ 17 / 2 - π / 2 - 2 * π := by linarith
    refine cos_le_of_abs_le
      (show (0.646 : ℝ) ≤ |17 / 2 - π / 2 - 2 * π| from ?_)
      (show |17 / 2 - π / 2 - 2 * π| ≤ 0.6461 from ?_) (by norm_num)
      (by norm_num) (by norm_num)
    · rw [abs_of_nonneg hnn]; linarith
    · rw [abs_of_nonneg hnn]; linarith
  · push_cast
    rw [← Real.sin_sub_two_pi, ← Real.sin_pi_sub]
    have h := Real.sin_lt (show (0 : ℝ) < π - (18 / 2 - 2 * π) by linarith)
    linarith
  · push_cast
    rw [← Real.sin_sub_two_pi]
    have h := sin_nonpos_of_pi_le (show π ≤ (19 : ℝ) / 2 - 2 * π by linarith)
      (show (19 : ℝ) / 2 - 2 * π ≤ 2 * π by linarith)
    linarith
  · push_cast
    rw [← Real.sin_sub_two_pi]
    have h := sin_nonpos_of_pi_le (show π ≤ (20 : ℝ) / 2 - 2 * π by linarith)
      (show (20 : ℝ) / 2 - 2 * π ≤ 2 * π by linarith)
    linarith
  · push_cast
    rw [← Real.sin_sub_two_pi]
    have h := sin_nonpos_of_pi_le (show π ≤ (21 : ℝ) / 2 - 2 * π by linarith)
      (show (21 : ℝ) / 2 - 2 * π ≤ 2 * π by linarith)
    linarith
  · push_cast
    rw [← Real.sin_sub_two_pi]
    have h := sin_nonpos_of_pi_le (show π ≤ (22 : ℝ) / 2 - 2 * π by linarith)
      (show (22 : ℝ) / 2 - 2 * π ≤ 2 * π by linarith)
    linarith

theorem sin_eleven_lt : Real.sin 11 < -0.9976 := by
  have hπl : (3.141592 : ℝ) < π := Real.pi_gt_d6
  have hπu : π < (3.141593 : ℝ) := Real.pi_lt_d6
  rw [← Real.cos_sub_pi_div_two, ← Real.cos_sub_two_pi]
  have hx := Real.cos_sub_pi (11 - π / 2 - 2 * π)
  have habs : |11 - π / 2 - 2 * π - π| ≤ 0.00443 := by
    rw [abs_of_nonneg (by linarith)]
    linarith
  have hc := cos_ge_of_abs_le habs (by norm_num)
    (show (0.9999 : ℝ) ≤ 1 - 0.00443 ^ 2 / 2 - 0.00443 ^ 4 * (5 / 96) by
      norm_num)
  linarith

theorem sine_entries_23_le (x : ℝ) (hx : x ∈ sine_entries 23 1 1) :
    x ≤ 0.9976 := by
  simp only [sine_entries, List.mem_flatMap, List.mem_map,
    List.mem_range] at hx
  obtain ⟨i, hi, j, hj, k, hk, hxx⟩ := hx
  have hj0 : j = 0 := by omega
  have hk0 : k = 0 := by omega
  subst hj0
  subst hk0
  subst hxx
  simp only [sine, Nat.cast_zero, zero_div, Real.sin_zero, zero_add,
    add_zero]
  exact sin_half_le i hi

theorem sine_100_pos : 0 < sine 1 0 0 := by
  have h05 : 0 < Real.sin ((1 : ℝ) / 2) :=
    Real.sin_pos_of_pos_of_lt_pi (by norm_num)
      (by linarith [Real.pi_gt_three])
  simp only [sine, Nat.cast_zero, Nat.cast_one, zero_div, Real.sin_zero,
    zero_add, add_zero]
  exact h05

theorem sine_max_23_pos : 0 < sine_max 23 1 1 := by
  rw [sine_max]
  exact lt_of_lt_of_le sine_100_pos
    (le_list_max (sine_mem (show 1 < 23 by norm_num)
      (show 0 < 1 by norm_num) (show 0 < 1 by norm_num)))

theorem sine_max_23_le : sine_max 23 1 1 ≤ 0.9976 := by
  rw [sine_max]
  exact list_max_le
    (List.ne_nil_of_mem (sine_mem (show 1 < 23 by norm_num)
      (show 0 < 1 by norm_num) (show 0 < 1 by norm_num)))
    sine_entries_23_le

/-- C3 fails as stated: the field is normalized by its signed maximum, not
by its maximum absolute value, so over a 23 x 1 x 1 volume (whose raw
field is not constant zero: the entry at voxel (1, 0, 0) is nonzero) the
normalized entry at voxel (22, 0, 0) equals sin(11) divided by the field
maximum and lies strictly below -1. -/
theorem sine_field_below_neg_one :
    sine 1 0 0 ≠ 0 ∧ sine_normalized 23 1 1 22 0 0 < -1 := by
  refine ⟨ne_of_gt sine_100_pos, ?_⟩
  rw [sine_normalized]
  have h22 : sine 22 0 0 = Real.sin 11 := by
    simp only [sine, Nat.cast_zero, zero_div, Real.sin_zero, zero_add,
      add_zero]
    norm_num
  rw [h22, div_lt_iff₀ sine_max_23_pos]
  have h1 := sin_eleven_lt
  have h2 := sine_max_23_le
  linarith

/-- C3 amended: the Spatial Modulator builds the field as a sum of one
sinusoid per axis with a fixed scale factor and normalizes it by dividing
by its signed maximum; whenever that maximum is positive every normalized
value is at most 1, but the lower bound -1 can fail when the minimum entry
exceeds the maximum in magnitude. -/
theorem sine_normalized_le_one (d0 d1 d2 i j k : ℕ) (hi : i < d0)
    (hj : j < d1) (hk : k < d2) (hpos : 0 < sine_max d0 d1 d2) :
    sine_normalized d0 d1 d2 i j k ≤ 1 := by
  rw [sine_normalized, div_le_one hpos, sine_max]
  exact le_list_max (sine_mem hi hj hk)

/-- Witness for the amended C3 on a 2 x 1 x 1 volume. -/
theorem sine_normalized_le_one_witness :
    sine_normalized 2 1 1 1 0 0 ≤ 1 := by
  have hpos : 0 < sine_max 2 1 1 := by
    rw [sine_max]
    exact lt_of_lt_of_le sine_100_pos
      (le_list_max (sine_mem (show 1 < 2 by norm_num)
        (show 0 < 1 by norm_num) (show 0 < 1 by norm_num)))
  exact sine_normalized_le_one 2 1 1 1 0 0 (by norm_num) (by norm_num)
    (by norm_num) hpos

end VB
